import Mathlib

/-!
Verification development for the GROBID batch-processing pipeline
(`grobid_batch_processor.py` and `process_pdfs_grobid.py`).

The two components with decision logic are embedded here:
* the structured-text extractor `extract_clean_text` (TEI XML tree -> plain text),
* the batch scheduler `process_pdfs_in_batches` (batching, liveness gate,
  staging, submission retry with backoff, harvest, cleanup).

Python strings are modelled as `List Char` (`Str`).  The ElementTree XML
model keeps for each element the tag (the full namespaced tag string, as
ElementTree stores it), its `.text`, its children and its `.tail`; a `text`
or `tail` of `[]` models both Python `None` and the empty string, which the
source code never distinguishes (it only ever tests truthiness).
Network and filesystem effects are modelled by explicit oracles
(liveness-gate results, staging-copy outcomes, per-attempt submission
outcomes) and by a small filesystem abstraction for the scratch folders.
-/

namespace Grobid

/-- Python strings as character lists. -/
abbrev Str := List Char

/-- Lower-casing used to model `re.IGNORECASE` matching of the ASCII markers. -/
def lcs (s : Str) : Str := s.map Char.toLower

/-- Python `str.strip()`: drop leading and trailing whitespace. -/
def pyStrip (s : Str) : Str :=
  ((s.dropWhile Char.isWhitespace).reverse.dropWhile Char.isWhitespace).reverse

/-- Python `sep.join(xs)`. -/
def pyJoin (sep : Str) : List Str → Str
  | [] => []
  | [x] => x
  | x :: y :: t => x ++ sep ++ pyJoin sep (y :: t)

/-- The `"\n\n"` separator used for body blocks and for the final artifact. -/
def blankSep : Str := "\n\n".data

/-- The alternatives of `re.split(r"(references|bibliography|acknowledg|agradecimientos)", ..., flags=re.IGNORECASE)`. -/
def MARKERS : List Str :=
  ["references".data, "bibliography".data, "acknowledg".data, "agradecimientos".data]

/-- Does some marker match (case-insensitively) at the start of `s`? -/
def matchesHere (s : Str) : Bool :=
  MARKERS.any (fun m => m.isPrefixOf (lcs s))

/-- Index of the leftmost case-insensitive marker match in `s`
(the split point of the ignore-case marker split), if any. -/
def firstMarkerIdx : Str → Option Nat
  | [] => none
  | c :: t => if matchesHere (c :: t) then some 0 else (firstMarkerIdx t).map (· + 1)

/-- Model of taking entry 0 of the ignore-case `re.split` on the markers: the text
before the leftmost marker match, or all of `s` when no marker occurs. -/
def reSplitHead (s : Str) : Str :=
  match firstMarkerIdx s with
  | none => s
  | some i => s.take i

/-- Does the marker `m` occur (case-insensitively) anywhere in `s`?  (Boolean.) -/
def markerHits (m s : Str) : Bool :=
  (List.range s.length).any (fun q => m.isPrefixOf ((lcs s).drop q))

/-- The proposition that marker `m` occurs (case-insensitively) somewhere in `s`. -/
abbrev MarkerOccursIn (m s : Str) : Prop := markerHits m s = true

mutual
/-- An ElementTree element: tag (namespaced, as ElementTree stores it),
`.text`, children, `.tail`.  `ElemList` is `List Elem`, spelled as a mutual
inductive so that traversals are structurally recursive. -/
inductive Elem : Type where
  | mk : Str → Str → ElemList → Str → Elem
inductive ElemList : Type where
  | nil : ElemList
  | cons : Elem → ElemList → ElemList
end

def Elem.tag : Elem → Str
  | .mk t _ _ _ => t

def Elem.text : Elem → Str
  | .mk _ tx _ _ => tx

def Elem.children : Elem → ElemList
  | .mk _ _ ch _ => ch

def Elem.tailText : Elem → Str
  | .mk _ _ _ tl => tl

/-- The `.tail` contribution of a child inside `itertext` (skipped when falsy). -/
def tailPiece (e : Elem) : List Str :=
  if e.tailText = [] then [] else [e.tailText]

/-- The `.text` contribution of an element inside `itertext` (skipped when falsy). -/
def textPiece (tx : Str) : List Str := if tx = [] then [] else [tx]

mutual
/-- Model of `Element.itertext()`: the text of the element, then recursively
the itertext of each child followed by the tail of that child, in document
order. -/
def Elem.itertext : Elem → List Str
  | .mk _ tx ch _ => textPiece tx ++ ElemList.childTexts ch
def ElemList.childTexts : ElemList → List Str
  | .nil => []
  | .cons e es => Elem.itertext e ++ tailPiece e ++ ElemList.childTexts es
end

mutual
/-- Model of `Element.iter()`: the element itself, then all descendants in document
(pre-)order. -/
def Elem.iterAll : Elem → List Elem
  | .mk t tx ch tl => Elem.mk t tx ch tl :: ElemList.iterChildren ch
def ElemList.iterChildren : ElemList → List Elem
  | .nil => []
  | .cons e es => Elem.iterAll e ++ ElemList.iterChildren es
end

/-- Proper descendants of an element, in document order (what a leading
`.//` path step ranges over). -/
def Elem.descendants (e : Elem) : List Elem := ElemList.iterChildren e.children

def ElemList.toList : ElemList → List Elem
  | .nil => []
  | .cons e es => e :: ElemList.toList es

/-- The `"(ns)"` brace-wrapped TEI namespace that ElementTree prepends to tags
and that the body loop strips with `str.replace`. -/
def nsBrace : Str := "\x7bhttp://www.tei-c.org/ns/1.0\x7d".data

/-- A namespaced tag, as ElementTree stores it and as the `tei:`-prefixed
paths of the source resolve it. -/
def qn (localName : String) : Str := nsBrace ++ localName.data

/-- Model of `str.replace(nsBrace, "")`: remove every occurrence, scanning left to
right.  Structured with a fuel argument (one unit per scanned position,
`s.length` is always enough) so the definition reduces definitionally. -/
def stripNsGo : Nat → Str → Str
  | _, [] => []
  | 0, s => s
  | f + 1, c :: t =>
    if nsBrace.isPrefixOf (c :: t) then stripNsGo f ((c :: t).drop nsBrace.length)
    else c :: stripNsGo f t

/-- Model of `e.tag.replace(...)` as used by the body loop of the source. -/
def stripNs (s : Str) : Str := stripNsGo s.length s

/-- Model of the membership test `tag in ("head", "p", "label", "list", "figure")`. -/
def tagRetained (t : Str) : Bool :=
  t == "head".data || t == "p".data || t == "label".data ||
    t == "list".data || t == "figure".data

/-- Model of `root.find(".//tei:titleStmt/tei:title", NS)`: the first `title` child of
the first (document-order) `titleStmt` descendant that has one. -/
def findTitle (root : Elem) : Option Elem :=
  ((((root.descendants).filter (fun e => e.tag == qn "titleStmt")).map
    (fun a => (a.children.toList).filter (fun e => e.tag == qn "title"))).flatten).head?

/-- Model of `root.findall(".//tei:keywords/tei:term", NS)`. -/
def findTerms (root : Elem) : List Elem :=
  (((root.descendants).filter (fun e => e.tag == qn "keywords")).map
    (fun a => (a.children.toList).filter (fun e => e.tag == qn "term"))).flatten

/-- Model of `root.find(".//tei:abstract", NS)`. -/
def findAbstract (root : Elem) : Option Elem :=
  ((root.descendants).filter (fun e => e.tag == qn "abstract")).head?

/-- Model of `root.find(".//tei:body", NS)`. -/
def findBody (root : Elem) : Option Elem :=
  ((root.descendants).filter (fun e => e.tag == qn "body")).head?

/-- The `TITLE: ...` entry, present exactly when
`title is not None and title.text` holds. -/
def titleLine (root : Elem) : Option Str :=
  match findTitle root with
  | none => none
  | some t => if t.text = [] then none else some ("TITLE: ".data ++ pyStrip t.text)

/-- Model of `[kw.text.strip() for kw in kws if kw.text]` — the items that are
joined by `", "`. -/
def kwItems (root : Elem) : List Str :=
  (findTerms root).filterMap
    (fun kw => if kw.text = [] then none else some (pyStrip kw.text))

/-- The `KEYWORDS: ...` entry, present exactly when the `findall` result is
non-empty (`if kws:`). -/
def kwLine (root : Elem) : Option Str :=
  match findTerms root with
  | [] => none
  | _ :: _ => some ("KEYWORDS: ".data ++ pyJoin ", ".data (kwItems root))

/-- The `ABSTRACT: ...` entry, present exactly when `abstract is not None`. -/
def absLine (root : Elem) : Option Str :=
  match findAbstract root with
  | none => none
  | some a => some ("ABSTRACT: ".data ++ pyStrip (pyJoin " ".data a.itertext))

/-- The retained body blocks (`parts` of the source): flattened text of every
`head`/`p`/`label`/`list`/`figure` element in `body.iter()`, kept if non-empty. -/
def partsOfBody (b : Elem) : List Str :=
  b.iterAll.filterMap (fun e =>
    if tagRetained (stripNs e.tag) then
      (let txt := pyStrip (pyJoin " ".data e.itertext)
       if txt = [] then none else some txt)
    else none)

/-- The retained body blocks of a document (empty when there is no body). -/
def partsOf (root : Elem) : List Str :=
  match findBody root with
  | none => []
  | some b => partsOfBody b

/-- Computation of `clean`: join the blocks, truncate at the first marker, strip. -/
def cleanOfParts (parts : List Str) : Str := pyStrip (reSplitHead (pyJoin blankSep parts))

def cleanOf (root : Elem) : Str := cleanOfParts (partsOf root)

/-- The body entry of `content`: appended (even when empty) whenever
`body is not None`. -/
def bodyEntry (root : Elem) : Option Str :=
  match findBody root with
  | none => none
  | some b => some (cleanOfParts (partsOfBody b))

/-- The `content` list built by the sequential conditional appends. -/
def contentOf (root : Elem) : List Str :=
  (titleLine root).toList ++ (kwLine root).toList ++ (absLine root).toList ++
    (bodyEntry root).toList

/-- Model of `extract_clean_text` on an already-parsed tree: the blank-line
join of the content entries. -/
def extract_clean_text (root : Elem) : Str := pyJoin blankSep (contentOf root)

/-- Model of `extract_clean_text` including the `ET.parse` stage: `none` models input
that is not valid structured markup, on which `ET.parse` raises before any
extraction happens. -/
def extractFromParse (x : Option Elem) : Except Unit Str :=
  match x with
  | none => Except.error ()
  | some root => Except.ok (extract_clean_text root)

/-- Running the extractor `n` times on the same parsed document. -/
def runExtractorTimes (root : Elem) (n : Nat) : List Str :=
  (List.range n).map (fun _ => extract_clean_text root)

/-- The document of the C2/C9-style counterexamples: a body whose single
paragraph reads `Intro References`. -/
def crDoc : Elem :=
  Elem.mk (qn "TEI") []
    (.cons (Elem.mk (qn "body") []
      (.cons (Elem.mk (qn "p") "Intro References".data .nil []) .nil) []) .nil) []

/-- A document whose single keyword term has whitespace-only text. -/
def kwDoc : Elem :=
  Elem.mk (qn "TEI") []
    (.cons (Elem.mk (qn "keywords") []
      (.cons (Elem.mk (qn "term") " ".data .nil []) .nil) []) .nil) []

/-- A document with a title and a body that has no retained text blocks. -/
def emptyBodyDoc : Elem :=
  Elem.mk (qn "TEI") []
    (.cons (Elem.mk (qn "titleStmt") []
      (.cons (Elem.mk (qn "title") "T".data .nil []) .nil) [])
    (.cons (Elem.mk (qn "body") [] .nil []) .nil)) []

/-- A document with a body but neither title, keywords nor abstract. -/
def noHeadDoc : Elem :=
  Elem.mk (qn "TEI") []
    (.cons (Elem.mk (qn "body") []
      (.cons (Elem.mk (qn "p") "hello".data .nil []) .nil) []) .nil) []

/-!
The batch scheduler.  `client.process` outcomes, liveness-probe outcomes and
staging-copy outcomes are oracles indexed by batch number (and, for
submission, attempt number); `time.sleep(30)` backoff calls are counted.
-/

/-- Observable outcome of the per-batch retry loop
(`for attempt in range(1, max_retries + 1)`): how many `client.process`
calls were made, how many 30-second backoff sleeps happened, whether the
loop exited via `break` (success), and whether `"Saltando lote."` was
printed (the batch marked skipped). -/
structure RetryOutcome where
  calls : Nat
  backoffs : Nat
  success : Bool
  skipped : Bool

/-- The retry loop over the remaining attempt numbers.  On failure at
attempt `a`: if `a = maxR` the batch is marked skipped (no sleep), else one
backoff sleep happens; both source files implement exactly this (the two
scripts only swap the if/else branches). -/
def retryGo (succeeds : Nat → Bool) (maxR : Nat) : List Nat → RetryOutcome
  | [] => ⟨0, 0, false, false⟩
  | a :: rest =>
    if succeeds a then ⟨1, 0, true, false⟩
    else
      let r := retryGo succeeds maxR rest
      { calls := r.calls + 1
        backoffs := if a = maxR then r.backoffs else r.backoffs + 1
        success := r.success
        skipped := if a = maxR then true else r.skipped }

/-- The whole retry loop: attempts are numbered `1, ..., max_retries`. -/
def retryLoop (succeeds : Nat → Bool) (maxR : Nat) : RetryOutcome :=
  retryGo succeeds maxR (List.range' 1 maxR)

/-- Existence of the two scratch staging folders (`/content/tmp_pdfs`,
`/content/tmp_tei`). -/
structure ScratchState where
  tmpInput : Bool
  tmpOutput : Bool

/-- Model of `shutil.rmtree(dir, ignore_errors=...)`: first component is whether the
call returns normally (removing a missing directory raises unless
`ignore_errors` is set), second is whether the directory exists afterwards. -/
def shutilRmtree (ignoreErrors dirExists : Bool) : Except Unit Unit × Bool :=
  (if dirExists || ignoreErrors then Except.ok () else Except.error (), false)

/-- What one completed batch cycle leaves behind. -/
structure BatchResult where
  size : Nat
  retry : RetryOutcome
  scratchAfter : ScratchState

/-- One batch cycle: `os.makedirs(..., exist_ok=True)` creates both scratch
folders, the batch members are copied in (`shutil.copy` is *not* inside any
`try`, so `copyOk = false` models an uncaught `OSError` that propagates out
of the whole run), the retry loop runs, results are harvested (per-file
extraction failures are caught and contained), and both scratch folders are
removed with `ignore_errors=True`. -/
def processBatch {α : Type} (copyOk : Bool) (succeeds : Nat → Bool) (maxR : Nat)
    (batch : List α) : Except Unit BatchResult :=
  let scratch : ScratchState := ⟨true, true⟩
  if copyOk then
    let r := retryLoop succeeds maxR
    let c1 := shutilRmtree true scratch.tmpInput
    let c2 := shutilRmtree true scratch.tmpOutput
    Except.ok ⟨batch.length, r, ⟨c1.2, c2.2⟩⟩
  else Except.error ()

/-- Result of a whole run that terminated normally (the summary print after
the loop always executes on that path, reporting the discovered count and
elapsed time). -/
structure RunResult where
  processed : List BatchResult
  halted : Bool
  discovered : Nat
  summaryReported : Bool

/-- The slicing loop `for idx, start_idx in enumerate(range(0, len(pdfs),
batch_size)): batch = pdfs[start_idx:start_idx + batch_size]`, phrased as
structural recursion with a fuel argument (`l.length` is always enough fuel
when `B ≥ 1`; Python raises `ValueError` for `B = 0`, which the claims
exclude). -/
def batchesGo {α : Type} (B : Nat) : Nat → List α → List (List α)
  | _, [] => []
  | 0, _ :: _ => []
  | f + 1, a :: t => ((a :: t).take B) :: batchesGo B f ((a :: t).drop B)

/-- The list of batches the scheduler iterates over. -/
def batches {α : Type} (B : Nat) (l : List α) : List (List α) :=
  batchesGo B l.length l

/-- The scheduler loop over the batch list, carrying the batch index.  A
failed liveness gate breaks out of the loop (`halted = true`); an uncaught
staging-copy error aborts the whole run (`Except.error`). -/
def schedGo {α : Type} (gate copyOk : Nat → Bool) (succ : Nat → Nat → Bool) (maxR : Nat) :
    Nat → List (List α) → Except Unit (List BatchResult × Bool)
  | _, [] => Except.ok ([], false)
  | i, b :: rest =>
    if gate i then
      match processBatch (copyOk i) (succ i) maxR b with
      | Except.error e => Except.error e
      | Except.ok br =>
        match schedGo gate copyOk succ maxR (i + 1) rest with
        | Except.error e => Except.error e
        | Except.ok (rs, h) => Except.ok (br :: rs, h)
    else Except.ok ([], true)

/-- Model of `process_pdfs_in_batches`: discover the inputs, run the batch loop, then
print the final summary.  An `Except.error` models the script dying on an
uncaught exception before the summary print. -/
def process_pdfs_in_batches {α : Type} (gate copyOk : Nat → Bool) (succ : Nat → Nat → Bool)
    (pdfs : List α) (B maxR : Nat) : Except Unit RunResult :=
  match schedGo gate copyOk succ maxR 0 (batches B pdfs) with
  | Except.error e => Except.error e
  | Except.ok (rs, h) => Except.ok ⟨rs, h, pdfs.length, true⟩

/-- The liveness gate of the `process_pdfs_grobid.py` variant: if the first
probe fails, `restart_grobid()` waits and the probe is retried once; the
batch proceeds iff either probe succeeds. -/
def gateWithRestart (firstCheck secondCheck : Nat → Bool) (i : Nat) : Bool :=
  firstCheck i || secondCheck i



lemma pyJoin_append_of_ne (sep : Str) :
    ∀ (xs ys : List Str), xs ≠ [] → ys ≠ [] →
      pyJoin sep (xs ++ ys) = pyJoin sep xs ++ sep ++ pyJoin sep ys := by
  intro xs
  induction xs with
  | nil => intro ys h hy; exact absurd rfl h
  | cons x xt ih =>
    intro ys _ hy
    cases xt with
    | nil =>
      cases ys with
      | nil => exact absurd rfl hy
      | cons y yt => simp [pyJoin]
    | cons x2 xt2 =>
      have : ((x :: x2 :: xt2) ++ ys) = x :: ((x2 :: xt2) ++ ys) := rfl
      rw [this]
      have h2 : (x2 :: xt2) ++ ys = x2 :: (xt2 ++ ys) := rfl
      calc pyJoin sep (x :: ((x2 :: xt2) ++ ys))
          = x ++ sep ++ pyJoin sep ((x2 :: xt2) ++ ys) := by rw [h2]; rfl
        _ = x ++ sep ++ (pyJoin sep (x2 :: xt2) ++ sep ++ pyJoin sep ys) := by
              rw [ih ys (by simp) hy]
        _ = pyJoin sep (x :: x2 :: xt2) ++ sep ++ pyJoin sep ys := by
              show _ = x ++ sep ++ pyJoin sep (x2 :: xt2) ++ sep ++ pyJoin sep ys
              simp [List.append_assoc]

lemma pyJoin_take_append (sep : Str) (parts : List Str) (n : Nat) :
    ∃ R, pyJoin sep (parts.take n) ++ R = pyJoin sep parts := by
  by_cases hd : parts.drop n = []
  · refine ⟨[], ?_⟩
    have ht : parts.take n = parts :=
      List.take_of_length_le (List.drop_eq_nil_iff.mp hd)
    rw [ht, List.append_nil]
  · by_cases ht : parts.take n = []
    · exact ⟨pyJoin sep parts, by rw [ht]; rfl⟩
    · refine ⟨sep ++ pyJoin sep (parts.drop n), ?_⟩
      have := pyJoin_append_of_ne sep (parts.take n) (parts.drop n) ht hd
      rw [List.take_append_drop] at this
      rw [this]
      simp [List.append_assoc]

lemma firstMarkerIdx_le (s : Str) (p : Nat) (h : matchesHere (s.drop p) = true) :
    ∃ k, firstMarkerIdx s = some k ∧ k ≤ p := by
  induction s generalizing p with
  | nil =>
    rw [List.drop_nil] at h
    exact absurd h (by decide)
  | cons c t ih =>
    by_cases hc : matchesHere (c :: t) = true
    · exact ⟨0, by simp [firstMarkerIdx, hc], Nat.zero_le p⟩
    · cases p with
      | zero => rw [List.drop_zero] at h; exact absurd h hc
      | succ p =>
        rw [List.drop_succ_cons] at h
        obtain ⟨k, hk, hle⟩ := ih p h
        exact ⟨k + 1, by simp [firstMarkerIdx, hc, hk], Nat.succ_le_succ hle⟩

lemma pyStrip_isInfix (s : Str) : pyStrip s <:+: s := by
  have h1 : s.dropWhile Char.isWhitespace <:+ s := List.dropWhile_suffix _
  have h2 : (s.dropWhile Char.isWhitespace).reverse.dropWhile Char.isWhitespace <:+
      (s.dropWhile Char.isWhitespace).reverse := List.dropWhile_suffix _
  obtain ⟨t, ht⟩ := h2
  have hrev : pyStrip s ++ t.reverse = s.dropWhile Char.isWhitespace := by
    have := congrArg List.reverse ht
    rw [List.reverse_append, List.reverse_reverse] at this
    exact this
  have hpre : pyStrip s <+: s.dropWhile Char.isWhitespace := ⟨t.reverse, hrev⟩
  exact hpre.isInfix.trans h1.isInfix

lemma matchesHere_of_ref (s : Str)
    (h : ("references".data).isPrefixOf (lcs s) = true) : matchesHere s = true := by
  simp only [matchesHere, MARKERS, List.any_cons, Bool.or_eq_true]
  exact Or.inl h

lemma isPrefixOf_of_append (m x y : Str) (h : m.isPrefixOf x = true) :
    m.isPrefixOf (x ++ y) = true := by
  rw [ List.isPrefixOf_iff_prefix] at h ⊢
  exact h.trans (List.prefix_append x y)

lemma lcs_drop (s : Str) (q : Nat) : lcs (s.drop q) = (lcs s).drop q := by
  simp [lcs, List.map_drop]

lemma lcs_append (s t : Str) : lcs (s ++ t) = lcs s ++ lcs t := by
  simp [lcs]

/-- The heart of the truncation property: if a retained block contains the
marker `references` (case-insensitively), then `clean` (the stripped head of
the marker split of the joined blocks) is an infix of the join of the blocks
up to and including that block — no text of any later block survives. -/
lemma clean_isInfix_of_marker (parts : List Str) (i : Nat) (hi : i < parts.length)
    (hm : MarkerOccursIn "references".data (parts.get ⟨i, hi⟩)) :
    pyStrip (reSplitHead (pyJoin blankSep parts)) <:+:
      pyJoin blankSep (parts.take (i + 1)) := by
  set block := parts.get ⟨i, hi⟩ with hblock
  rw [MarkerOccursIn, markerHits, List.any_eq_true] at hm
  obtain ⟨q, hqmem, hqpref⟩ := hm
  rw [List.mem_range] at hqmem
  have hfit : q + ("references".data).length ≤ block.length := by
    have hlen := ( List.isPrefixOf_iff_prefix.mp hqpref).length_le
    rw [List.length_drop] at hlen
    have : (lcs block).length = block.length := by simp [lcs]
    omega
  have hreflen : ("references".data).length = 10 := rfl
  have htk : parts.take (i + 1) = parts.take i ++ [block] := by
    simp [List.take_succ, List.get?_eq_get hi, hblock]
  obtain ⟨Cpre, hJ⟩ :
      ∃ C, pyJoin blankSep (parts.take (i + 1)) = C ++ block := by
    by_cases h0 : parts.take i = []
    · exact ⟨[], by rw [htk, h0]; rfl⟩
    · refine ⟨pyJoin blankSep (parts.take i) ++ blankSep, ?_⟩
      rw [htk, pyJoin_append_of_ne blankSep _ _ h0 (by simp)]
      simp [pyJoin, List.append_assoc]
  obtain ⟨R, hR⟩ := pyJoin_take_append blankSep parts (i + 1)
  set J := pyJoin blankSep (parts.take (i + 1)) with hJdef
  set full := pyJoin blankSep parts with hfull
  have hJlen : J.length = Cpre.length + block.length := by
    rw [hJ, List.length_append]
  have hple : Cpre.length + q ≤ J.length := by omega
  have hocc : matchesHere (full.drop (Cpre.length + q)) = true := by
    apply matchesHere_of_ref
    rw [← hR]
    rw [List.drop_append_of_le_length hple]
    rw [lcs_append]
    apply isPrefixOf_of_append
    have hJdrop : J.drop (Cpre.length + q) = block.drop q := by
      rw [hJ]
      exact List.drop_append ..
    rw [hJdrop, lcs_drop]
    exact hqpref
  obtain ⟨k, hk, hkle⟩ := firstMarkerIdx_le full (Cpre.length + q) hocc
  have hkJ : k ≤ J.length := by omega
  have hhead : reSplitHead full = J.take k := by
    rw [reSplitHead, hk]
    show full.take k = J.take k
    rw [← hR, List.take_append_of_le_length hkJ]
  rw [hhead]
  have hpfx := List.take_prefix k J
  exact (pyStrip_isInfix (J.take k)).trans hpfx.isInfix

lemma batchesGo_fuel {α : Type} (B : Nat) (hB : 1 ≤ B) :
    ∀ (f1 : Nat) (l : List α) (f2 : Nat), l.length ≤ f1 → l.length ≤ f2 →
      batchesGo B f1 l = batchesGo B f2 l := by
  intro f1
  induction f1 with
  | zero =>
    intro l f2 h1 _
    have : l = [] := List.eq_nil_of_length_eq_zero (Nat.le_zero.mp h1)
    subst this
    cases f2 <;> rfl
  | succ f ih =>
    intro l f2 h1 h2
    cases l with
    | nil => cases f2 <;> rfl
    | cons a t =>
      cases f2 with
      | zero => simp at h2
      | succ g =>
        show ((a :: t).take B) :: batchesGo B f ((a :: t).drop B) =
          ((a :: t).take B) :: batchesGo B g ((a :: t).drop B)
        have hd : ((a :: t).drop B).length ≤ f := by
          simp only [List.length_drop, List.length_cons] at h1 ⊢
          omega
        have hd2 : ((a :: t).drop B).length ≤ g := by
          simp only [List.length_drop, List.length_cons] at h2 ⊢
          omega
        rw [ih _ g hd hd2]

lemma batches_cons {α : Type} (B : Nat) (hB : 1 ≤ B) (a : α) (t : List α) :
    batches B (a :: t) = ((a :: t).take B) :: batches B ((a :: t).drop B) := by
  have hd : ((a :: t).drop B).length ≤ t.length := by
    simp only [List.length_drop, List.length_cons]
    omega
  show ((a :: t).take B) :: batchesGo B t.length ((a :: t).drop B) =
    ((a :: t).take B) :: batchesGo B ((a :: t).drop B).length ((a :: t).drop B)
  rw [batchesGo_fuel B hB t.length ((a :: t).drop B) ((a :: t).drop B).length hd
    (Nat.le_refl _)]

lemma batches_ne_nil {α : Type} (B : Nat) (hB : 1 ≤ B) (a : α) (t : List α) :
    batches B (a :: t) ≠ [] := by
  rw [batches_cons B hB]
  simp

lemma batches_flatten {α : Type} (B : Nat) (hB : 1 ≤ B) :
    ∀ (l : List α), (batches B l).flatten = l := by
  have key : ∀ (n : Nat) (l : List α), l.length = n → (batches B l).flatten = l := by
    intro n
    induction n using Nat.strong_induction_on with
    | _ n ih =>
      intro l hlen
      cases l with
      | nil => rfl
      | cons a t =>
        rw [batches_cons B hB, List.flatten_cons]
        have hd : ((a :: t).drop B).length < n := by
          rw [List.length_drop]
          simp at hlen ⊢
          omega
        rw [ih _ hd _ rfl]
        exact List.take_append_drop B (a :: t)
  intro l
  exact key l.length l rfl

lemma batches_length {α : Type} (B : Nat) (hB : 1 ≤ B) :
    ∀ (l : List α), (batches B l).length = (l.length + B - 1) / B := by
  have key : ∀ (n : Nat) (l : List α), l.length = n →
      (batches B l).length = (l.length + B - 1) / B := by
    intro n
    induction n using Nat.strong_induction_on with
    | _ n ih =>
      intro l hlen
      cases l with
      | nil =>
        show (0 : Nat) = (0 + B - 1) / B
        rw [Nat.zero_add]
        exact (Nat.div_eq_of_lt (by omega)).symm
      | cons a t =>
        rw [batches_cons B hB, List.length_cons]
        have hd : ((a :: t).drop B).length < n := by
          rw [List.length_drop]
          simp at hlen ⊢
          omega
        rw [ih _ hd _ rfl]
        rw [List.length_drop]
        have hN : 1 ≤ (a :: t).length := by simp
        set N := (a :: t).length with hNdef
        have hright : (N + B - 1) / B = (N - 1) / B + 1 := by
          rw [Nat.div_eq_sub_div (by omega) (by omega)]
          have hnum : N + B - 1 - B = N - 1 := by omega
          rw [hnum]
        rw [hright]
        by_cases hNB : B ≤ N
        · have : N - B + B - 1 = N - 1 := by omega
          rw [this]
        · have h1 : N - B = 0 := by omega
          rw [h1]
          have h2 : (0 + B - 1) / B = 0 := Nat.div_eq_of_lt (by omega)
          have h3 : (N - 1) / B = 0 := Nat.div_eq_of_lt (by omega)
          omega
  intro l
  exact key l.length l rfl

lemma batches_dropLast_size {α : Type} (B : Nat) (hB : 1 ≤ B) :
    ∀ (l : List α) (b : List α), b ∈ (batches B l).dropLast → b.length = B := by
  have key : ∀ (n : Nat) (l : List α), l.length = n →
      ∀ b, b ∈ (batches B l).dropLast → b.length = B := by
    intro n
    induction n using Nat.strong_induction_on with
    | _ n ih =>
      intro l hlen b hb
      cases l with
      | nil => simp [batches, batchesGo] at hb
      | cons a t =>
        rw [batches_cons B hB] at hb
        by_cases hd : (a :: t).drop B = []
        · rw [hd] at hb
          simp [batches, batchesGo] at hb
        · obtain ⟨a2, t2, hdd⟩ := List.exists_cons_of_ne_nil hd
          have hne : batches B ((a :: t).drop B) ≠ [] := by
            rw [hdd]; exact batches_ne_nil B hB a2 t2
          rw [List.dropLast_cons_of_ne_nil hne, List.mem_cons] at hb
          cases hb with
          | inl hb =>
            subst hb
            rw [List.length_take]
            have : B < (a :: t).length := by
              by_contra hcon
              exact hd (List.drop_eq_nil_iff.mpr (by omega))
            omega
          | inr hb =>
            have hdlt : ((a :: t).drop B).length < n := by
              rw [List.length_drop]
              simp at hlen ⊢
              omega
            exact ih _ hdlt _ rfl b hb
  intro l b hb
  exact key l.length l rfl b hb

lemma batches_getD {α : Type} (B : Nat) (hB : 1 ≤ B) :
    ∀ (l : List α) (k : Nat), (batches B l).getD k [] = (l.drop (k * B)).take B := by
  have key : ∀ (n : Nat) (l : List α), l.length = n →
      ∀ k, (batches B l).getD k [] = (l.drop (k * B)).take B := by
    intro n
    induction n using Nat.strong_induction_on with
    | _ n ih =>
      intro l hlen k
      cases l with
      | nil => cases k <;> simp [batches, batchesGo]
      | cons a t =>
        rw [batches_cons B hB]
        cases k with
        | zero => simp
        | succ k =>
          show (batches B ((a :: t).drop B)).getD k [] = _
          have hdlt : ((a :: t).drop B).length < n := by
            rw [List.length_drop]
            simp at hlen ⊢
            omega
          rw [ih _ hdlt _ rfl k, List.drop_drop]
          congr 2
          ring
  intro l k
  exact key l.length l rfl k



lemma retryGo_fail (succeeds : Nat → Bool) (maxR : Nat) (hf : ∀ a, succeeds a = false) :
    ∀ (n s : Nat), s + n = maxR + 1 →
      (retryGo succeeds maxR (List.range' s n)).calls = n ∧
      (retryGo succeeds maxR (List.range' s n)).backoffs = n - 1 ∧
      (retryGo succeeds maxR (List.range' s n)).success = false ∧
      ((retryGo succeeds maxR (List.range' s n)).skipped = true ↔ 1 ≤ n) := by
  intro n
  induction n with
  | zero =>
    intro s _
    refine ⟨rfl, rfl, rfl, ?_⟩
    simp [retryGo]
  | succ n ih =>
    intro s hs
    rw [List.range'_succ]
    obtain ⟨ihc, ihb, ihs, ihk⟩ := ih (s + 1) (by omega)
    by_cases hsm : s = maxR
    · have hn0 : n = 0 := by omega
      subst hn0
      have hval : retryGo succeeds maxR (s :: List.range' (s + 1) 0) =
          ⟨1, 0, false, true⟩ := by
        simp [retryGo, hf, hsm]
      rw [hval]
      exact ⟨rfl, rfl, rfl, by simp⟩
    · have hn1 : 1 ≤ n := by omega
      simp only [retryGo, hf, Bool.false_eq_true, if_false, if_neg hsm]
      refine ⟨by rw [ihc], ?_, by rw [ihs], ?_⟩
      · show (retryGo succeeds maxR (List.range' (s + 1) n)).backoffs + 1 = n + 1 - 1
        rw [ihb]
        omega
      · show (retryGo succeeds maxR (List.range' (s + 1) n)).skipped = true ↔ 1 ≤ n + 1
        rw [ihk]
        omega

lemma retryLoop_fail (succeeds : Nat → Bool) (maxR : Nat) (hf : ∀ a, succeeds a = false) :
    (retryLoop succeeds maxR).calls = maxR ∧
    (retryLoop succeeds maxR).backoffs = maxR - 1 ∧
    (retryLoop succeeds maxR).success = false ∧
    ((retryLoop succeeds maxR).skipped = true ↔ 1 ≤ maxR) :=
  retryGo_fail succeeds maxR hf maxR 1 (by omega)

lemma processBatch_ok {α : Type} (succeeds : Nat → Bool) (maxR : Nat) (batch : List α) :
    processBatch true succeeds maxR batch =
      Except.ok ⟨batch.length, retryLoop succeeds maxR, ⟨false, false⟩⟩ := rfl

lemma processBatch_copyFail {α : Type} (succeeds : Nat → Bool) (maxR : Nat) (batch : List α) :
    processBatch false succeeds maxR batch = Except.error () := rfl

lemma schedGo_ok_all {α : Type} (gate copyOk : Nat → Bool) (succ : Nat → Nat → Bool)
    (maxR : Nat) (hg : ∀ j, gate j = true) (hc : ∀ j, copyOk j = true) :
    ∀ (bs : List (List α)) (i : Nat),
      ∃ rs, schedGo gate copyOk succ maxR i bs = Except.ok (rs, false) ∧
        rs.length = bs.length ∧
        ∀ br ∈ rs, br.scratchAfter = ⟨false, false⟩ := by
  intro bs
  induction bs with
  | nil => intro i; exact ⟨[], rfl, rfl, by simp⟩
  | cons b rest ih =>
    intro i
    obtain ⟨rs, hrs, hlen, hclean⟩ := ih (i + 1)
    refine ⟨⟨b.length, retryLoop (succ i) maxR, ⟨false, false⟩⟩ :: rs, ?_, by simp [hlen], ?_⟩
    · show schedGo gate copyOk succ maxR i (b :: rest) = _
      rw [schedGo, if_pos (hg i), hc i, processBatch_ok, hrs]
    · intro br hbr
      rw [List.mem_cons] at hbr
      cases hbr with
      | inl h => subst h; rfl
      | inr h => exact hclean br h

lemma schedGo_halt {α : Type} (gate copyOk : Nat → Bool) (succ : Nat → Nat → Bool)
    (maxR : Nat) :
    ∀ (bs : List (List α)) (i k : Nat), k < bs.length →
      (∀ j, j < k → gate (i + j) = true) → (∀ j, j < k → copyOk (i + j) = true) →
      gate (i + k) = false →
      ∃ rs, schedGo gate copyOk succ maxR i bs = Except.ok (rs, true) ∧
        rs.length = k ∧
        ∀ br ∈ rs, br.scratchAfter = ⟨false, false⟩ := by
  intro bs
  induction bs with
  | nil => intro i k hk; exact absurd hk (by simp)
  | cons b rest ih =>
    intro i k hk hg hc hgk
    cases k with
    | zero =>
      refine ⟨[], ?_, rfl, by simp⟩
      show schedGo gate copyOk succ maxR i (b :: rest) = _
      rw [schedGo]
      rw [if_neg]
      rw [Nat.add_zero] at hgk
      simp [hgk]
    | succ k =>
      have hg0 : gate i = true := by
        have := hg 0 (by omega)
        rwa [Nat.add_zero] at this
      have hc0 : copyOk i = true := by
        have := hc 0 (by omega)
        rwa [Nat.add_zero] at this
      obtain ⟨rs, hrs, hlen, hclean⟩ := ih (i + 1) k (by simp at hk; omega)
        (fun j hj => by have := hg (j + 1) (by omega); rwa [show i + (j + 1) = i + 1 + j by omega] at this)
        (fun j hj => by have := hc (j + 1) (by omega); rwa [show i + (j + 1) = i + 1 + j by omega] at this)
        (by have := hgk; rwa [show i + (k + 1) = i + 1 + k by omega] at this)
      refine ⟨⟨b.length, retryLoop (succ i) maxR, ⟨false, false⟩⟩ :: rs, ?_, by simp [hlen], ?_⟩
      · show schedGo gate copyOk succ maxR i (b :: rest) = _
        rw [schedGo, if_pos hg0, hc0, processBatch_ok, hrs]
      · intro br hbr
        rw [List.mem_cons] at hbr
        cases hbr with
        | inl h => subst h; rfl
        | inr h => exact hclean br h

lemma schedGo_copyError {α : Type} (gate copyOk : Nat → Bool) (succ : Nat → Nat → Bool)
    (maxR : Nat) :
    ∀ (bs : List (List α)) (i k : Nat), k < bs.length →
      (∀ j, j < k → gate (i + j) = true) → (∀ j, j < k → copyOk (i + j) = true) →
      gate (i + k) = true → copyOk (i + k) = false →
      schedGo gate copyOk succ maxR i bs = Except.error () := by
  intro bs
  induction bs with
  | nil => intro i k hk; exact absurd hk (by simp)
  | cons b rest ih =>
    intro i k hk hg hc hgk hck
    cases k with
    | zero =>
      rw [Nat.add_zero] at hgk hck
      show schedGo gate copyOk succ maxR i (b :: rest) = _
      rw [schedGo, if_pos hgk, hck, processBatch_copyFail]
    | succ k =>
      have hg0 : gate i = true := by
        have := hg 0 (by omega)
        rwa [Nat.add_zero] at this
      have hc0 : copyOk i = true := by
        have := hc 0 (by omega)
        rwa [Nat.add_zero] at this
      have hrec : schedGo gate copyOk succ maxR (i + 1) rest = Except.error () :=
        ih (i + 1) k (by simp at hk; omega)
          (fun j hj => by have := hg (j + 1) (by omega); rwa [show i + (j + 1) = i + 1 + j by omega] at this)
          (fun j hj => by have := hc (j + 1) (by omega); rwa [show i + (j + 1) = i + 1 + j by omega] at this)
          (by have := hgk; rwa [show i + (k + 1) = i + 1 + k by omega] at this)
          (by have := hck; rwa [show i + (k + 1) = i + 1 + k by omega] at this)
      show schedGo gate copyOk succ maxR i (b :: rest) = _
      rw [schedGo, if_pos hg0, hc0, processBatch_ok, hrec]



lemma processBatch_scratch {α : Type} (c : Bool) (succeeds : Nat → Bool) (maxR : Nat)
    (batch : List α) (br : BatchResult)
    (h : processBatch c succeeds maxR batch = Except.ok br) :
    br.scratchAfter = ⟨false, false⟩ := by
  cases c with
  | true =>
    rw [processBatch_ok] at h
    injection h with h2
    subst h2
    rfl
  | false =>
    rw [processBatch_copyFail] at h
    exact absurd h (by simp)

lemma schedGo_ok_clean {α : Type} (gate copyOk : Nat → Bool) (succ : Nat → Nat → Bool)
    (maxR : Nat) :
    ∀ (bs : List (List α)) (i : Nat) (rs : List BatchResult) (h : Bool),
      schedGo gate copyOk succ maxR i bs = Except.ok (rs, h) →
      ∀ br ∈ rs, br.scratchAfter = ⟨false, false⟩ := by
  intro bs
  induction bs with
  | nil =>
    intro i rs h heq br hbr
    have heq2 : (Except.ok (([] : List BatchResult), false) :
        Except Unit (List BatchResult × Bool)) = Except.ok (rs, h) := heq
    simp at heq2
    obtain ⟨hrs, _⟩ := heq2
    subst hrs
    simp at hbr
  | cons b rest ih =>
    intro i rs h heq br hbr
    by_cases hg : gate i = true
    · cases hpb : processBatch (copyOk i) (succ i) maxR b with
      | error e =>
        rw [schedGo, if_pos hg, hpb] at heq
        exact absurd heq (by simp)
      | ok br0 =>
        cases hrec : schedGo gate copyOk succ maxR (i + 1) rest with
        | error e =>
          rw [schedGo, if_pos hg, hpb, hrec] at heq
          exact absurd heq (by simp)
        | ok p =>
          obtain ⟨rs2, h2⟩ := p
          rw [schedGo, if_pos hg, hpb, hrec] at heq
          simp at heq
          obtain ⟨hrs, _⟩ := heq
          subst hrs
          rw [List.mem_cons] at hbr
          cases hbr with
          | inl hbr0 =>
            subst hbr0
            exact processBatch_scratch (copyOk i) (succ i) maxR b br hpb
          | inr hbr0 => exact ih (i + 1) rs2 h2 hrec br hbr0
    · rw [schedGo, if_neg hg] at heq
      simp at heq
      obtain ⟨hrs, _⟩ := heq
      subst hrs
      simp at hbr

/-- Helper: a non-empty label followed by anything is non-empty. -/
lemma label_append_ne_nil (lab y : Str) (hl : lab ≠ []) : lab ++ y ≠ [] := by
  cases lab with
  | nil => exact absurd rfl hl
  | cons c t => simp

/-- C1: for every batch size `B ≥ 1` and discovered list, the batch list of
the scheduler has exactly `⌈N/B⌉` entries, each batch is the contiguous slice
`pdfs[k*B : k*B+B]`, every batch except possibly the last has size `B`, the
concatenation of the batches is exactly the discovered list (so every
document appears in exactly one batch), and on a run with the service up the
scheduler processes exactly that many batches. -/
theorem c1_batching {α : Type} (B : Nat) (l : List α) (hB : 1 ≤ B) :
    (batches B l).flatten = l ∧
    (batches B l).length = (l.length + B - 1) / B ∧
    (∀ b, b ∈ (batches B l).dropLast → b.length = B) ∧
    (∀ k, (batches B l).getD k [] = (l.drop (k * B)).take B) ∧
    (∀ (gate copyOk : Nat → Bool) (succ : Nat → Nat → Bool) (maxR : Nat),
      (∀ i, gate i = true) → (∀ i, copyOk i = true) →
      ∃ r, process_pdfs_in_batches gate copyOk succ l B maxR = Except.ok r ∧
        r.processed.length = (l.length + B - 1) / B ∧ r.discovered = l.length) := by
  refine ⟨batches_flatten B hB l, batches_length B hB l,
    fun b hb => batches_dropLast_size B hB l b hb, fun k => batches_getD B hB l k, ?_⟩
  intro gate copyOk succ maxR hg hc
  obtain ⟨rs, hrs, hlen, _⟩ := schedGo_ok_all gate copyOk succ maxR hg hc (batches B l) 0
  refine ⟨⟨rs, false, l.length, true⟩, ?_, ?_, rfl⟩
  · rw [process_pdfs_in_batches, hrs]
  · show rs.length = _
    rw [hlen, batches_length B hB]

/-- C1 witness: the batching facts instantiated at `B = 2`, seven concrete
documents. -/
theorem c1_batching_witness :
    1 ≤ 2 ∧ (batches 2 [0, 1, 2, 3, 4, 5, 6]).flatten = [0, 1, 2, 3, 4, 5, 6] ∧
      (batches 2 [0, 1, 2, 3, 4, 5, 6]).length = 4 :=
  ⟨by decide, (c1_batching 2 [0, 1, 2, 3, 4, 5, 6] (by decide)).1,
    (c1_batching 2 [0, 1, 2, 3, 4, 5, 6] (by decide)).2.1⟩



/-- C2 counterexample: in `crDoc` the single retained block is
`Intro References`; the claim says the artifact contains no text from that
block, yet the artifact is exactly `Intro` — a non-empty piece of that very
block (the text before the marker survives the `re.split` truncation). -/
theorem c2_counterexample :
    partsOf crDoc = ["Intro References".data] ∧
    MarkerOccursIn "references".data "Intro References".data ∧
    extract_clean_text crDoc = "Intro".data ∧
    "Intro".data ≠ ([] : Str) ∧
    List.IsInfix "Intro".data "Intro References".data := by decide

/-- C2 amended: if a retained body block contains `References` in any case,
the body component of the final artifact contains no text from any retained block
after that block in document order (it is an infix of the join of the blocks
up to and including the marker block); the marker block itself may still
contribute the text preceding the marker occurrence. -/
theorem c2_amended_truncation (root : Elem) (i : Nat) (hi : i < (partsOf root).length)
    (hm : MarkerOccursIn "references".data ((partsOf root).get ⟨i, hi⟩)) :
    cleanOf root <:+: pyJoin blankSep ((partsOf root).take (i + 1)) ∧
    bodyEntry root = some (cleanOf root) := by
  constructor
  · exact clean_isInfix_of_marker (partsOf root) i hi hm
  · cases hb : findBody root with
    | none =>
      exfalso
      rw [show partsOf root = [] by simp [partsOf, hb]] at hi
      simp at hi
    | some b => simp [bodyEntry, hb, cleanOf, partsOf]

/-- C2 amended witness: the amended truncation statement at `crDoc`. -/
theorem c2_amended_truncation_witness :
    0 < (partsOf crDoc).length ∧
    cleanOf crDoc <:+: pyJoin blankSep ((partsOf crDoc).take 1) :=
  ⟨by decide, (c2_amended_truncation crDoc 0 (by decide) (by decide)).1⟩

/-- C3: with `max_retries ≥ 3`, a submission that fails twice then succeeds
leaves the batch successful, exactly 2 backoff waits and no skip; with every
attempt failing, exactly `max_retries` calls are made, the batch is marked
skipped, and the run still processes every batch (the retry loop never
terminates the run). -/
theorem c3_retry (succeeds : Nat → Bool) (maxR : Nat) :
    (3 ≤ maxR → succeeds 1 = false → succeeds 2 = false → succeeds 3 = true →
      (retryLoop succeeds maxR).success = true ∧
      (retryLoop succeeds maxR).backoffs = 2 ∧
      (retryLoop succeeds maxR).skipped = false) ∧
    (1 ≤ maxR → (∀ a, succeeds a = false) →
      (retryLoop succeeds maxR).calls = maxR ∧
      (retryLoop succeeds maxR).skipped = true ∧
      (retryLoop succeeds maxR).success = false) ∧
    (∀ (gate copyOk : Nat → Bool) (pdfs : List Nat) (B : Nat),
      (∀ i, gate i = true) → (∀ i, copyOk i = true) →
      ∃ r, process_pdfs_in_batches gate copyOk (fun _ _ => false) pdfs B maxR = Except.ok r ∧
        r.processed.length = (batches B pdfs).length ∧ r.summaryReported = true) := by
  refine ⟨?_, ?_, ?_⟩
  · intro h3 h1 h2 hs3
    obtain ⟨k, rfl⟩ : ∃ k, maxR = k + 3 := ⟨maxR - 3, by omega⟩
    have e : List.range' 1 (k + 3) = 1 :: 2 :: 3 :: List.range' 4 k := by
      rw [show k + 3 = (k + 2) + 1 by omega, List.range'_succ]
      rw [show k + 2 = (k + 1) + 1 by omega, List.range'_succ]
      rw [List.range'_succ]
    have ha1 : (1 : Nat) ≠ k + 3 := by omega
    have ha2 : (2 : Nat) ≠ k + 3 := by omega
    have hval : retryGo succeeds (k + 3) (1 :: 2 :: 3 :: List.range' 4 k) =
        ⟨3, 2, true, false⟩ := by
      simp [retryGo, h1, h2, hs3, ha1, ha2]
    rw [retryLoop, e, hval]
    exact ⟨rfl, rfl, rfl⟩
  · intro hmr hf
    obtain ⟨hc, _, hs, hk⟩ := retryLoop_fail succeeds maxR hf
    exact ⟨hc, hk.mpr hmr, hs⟩
  · intro gate copyOk pdfs B hg hc
    obtain ⟨rs, hrs, hlen, _⟩ :=
      schedGo_ok_all gate copyOk (fun _ _ => false) maxR hg hc (batches B pdfs) 0
    refine ⟨⟨rs, false, pdfs.length, true⟩, ?_, hlen, rfl⟩
    rw [process_pdfs_in_batches, hrs]

/-- C3 witness: attempts 1 and 2 fail, attempt 3 succeeds, with
`max_retries = 3`; and the always-failing case at `max_retries = 3`. -/
theorem c3_retry_witness :
    (retryLoop (fun a => a == 3) 3).success = true ∧
    (retryLoop (fun a => a == 3) 3).backoffs = 2 ∧
    (retryLoop (fun a => a == 3) 3).skipped = false ∧
    (retryLoop (fun _ => false) 3).calls = 3 := by
  have h1 := (c3_retry (fun a => a == 3) 3).1 (by decide) rfl rfl rfl
  have h2 := (c3_retry (fun _ => false) 3).2.1 (by decide) (fun a => rfl)
  exact ⟨h1.1, h1.2.1, h1.2.2, h2.1⟩

/-- C4: every batch cycle that completes — submission succeeded, failed and
was retried, or was skipped after retry exhaustion — ends with both scratch
staging folders absent; removal with `ignore_errors=True` returns normally
even on an absent folder, and removing again after removal still succeeds
(idempotence). -/
theorem c4_cleanup {α : Type} :
    (∀ (c : Bool) (succeeds : Nat → Bool) (maxR : Nat) (batch : List α) (br : BatchResult),
      processBatch c succeeds maxR batch = Except.ok br →
      br.scratchAfter = ⟨false, false⟩) ∧
    (∀ (gate copyOk : Nat → Bool) (succ : Nat → Nat → Bool) (maxR : Nat)
        (bs : List (List α)) (i : Nat) (rs : List BatchResult) (h : Bool),
      schedGo gate copyOk succ maxR i bs = Except.ok (rs, h) →
      ∀ br ∈ rs, br.scratchAfter = ⟨false, false⟩) ∧
    (∀ b : Bool, shutilRmtree true b = (Except.ok (), false)) ∧
    (shutilRmtree true false).1 = Except.ok () ∧
    (∀ b : Bool, shutilRmtree true ((shutilRmtree true b).2) = (Except.ok (), false)) := by
  refine ⟨?_, ?_, ?_, rfl, ?_⟩
  · exact fun c s m batch br h => processBatch_scratch c s m batch br h
  · exact fun gate copyOk succ maxR bs i rs h heq =>
      schedGo_ok_clean gate copyOk succ maxR bs i rs h heq
  · intro b; cases b <;> rfl
  · intro b; cases b <;> rfl

/-- C4 witness: a concrete batch whose every submission attempt fails is
still followed by scratch cleanup. -/
theorem c4_cleanup_witness :
    processBatch (α := Nat) true (fun _ => false) 3 [5] =
      Except.ok ⟨1, ⟨3, 2, false, true⟩, ⟨false, false⟩⟩ ∧
    (⟨1, ⟨3, 2, false, true⟩, ⟨false, false⟩⟩ : BatchResult).scratchAfter =
      ⟨false, false⟩ :=
  ⟨rfl, (c4_cleanup (α := Nat)).1 true (fun _ => false) 3 [5] _ rfl⟩



/-- C5 counterexample: with the service alive at every probe, a failing
staging copy (`shutil.copy` is outside every `try`) terminates the whole run
before the final summary — so a failure other than the liveness probe does
terminate the run, contradicting the claim. -/
theorem c5_counterexample :
    process_pdfs_in_batches (α := Nat) (fun _ => true) (fun _ => false) (fun _ _ => true)
      [1] 1 3 = Except.error () := rfl

/-- C5 amended: if the liveness gate first fails at batch `k` (and staging
copies up to there succeed), the run stops with exactly the first `k`
batches processed and still reports the final summary with the discovered
count; when the gate always passes and staging copies succeed, no submission
failure ever terminates the run; but an uncaught staging-copy error aborts
the run without the summary.  In the variant of the second script the gate fails
exactly when both the probe and the post-restart probe fail. -/
theorem c5_amended_liveness {α : Type} (gate copyOk : Nat → Bool) (succ : Nat → Nat → Bool)
    (pdfs : List α) (B maxR k : Nat) :
    ((∀ j, j < k → gate j = true) → (∀ j, j < k → copyOk j = true) → gate k = false →
      k < (batches B pdfs).length →
      ∃ r, process_pdfs_in_batches gate copyOk succ pdfs B maxR = Except.ok r ∧
        r.processed.length = k ∧ r.halted = true ∧ r.summaryReported = true ∧
        r.discovered = pdfs.length) ∧
    ((∀ j, gate j = true) → (∀ j, copyOk j = true) →
      ∃ r, process_pdfs_in_batches gate copyOk succ pdfs B maxR = Except.ok r ∧
        r.halted = false ∧ r.processed.length = (batches B pdfs).length ∧
        r.summaryReported = true ∧ r.discovered = pdfs.length) ∧
    ((∀ j, j < k → gate j = true) → (∀ j, j < k → copyOk j = true) → gate k = true →
      copyOk k = false → k < (batches B pdfs).length →
      process_pdfs_in_batches gate copyOk succ pdfs B maxR = Except.error ()) ∧
    (∀ (a1 a2 : Nat → Bool) (i : Nat),
      gateWithRestart a1 a2 i = false ↔ (a1 i = false ∧ a2 i = false)) := by
  refine ⟨?_, ?_, ?_, ?_⟩
  · intro hg hc hgk hk
    obtain ⟨rs, hrs, hlen, _⟩ := schedGo_halt gate copyOk succ maxR (batches B pdfs) 0 k hk
      (fun j hj => by have := hg j hj; rwa [Nat.zero_add])
      (fun j hj => by have := hc j hj; rwa [Nat.zero_add])
      (by rwa [Nat.zero_add])
    refine ⟨⟨rs, true, pdfs.length, true⟩, ?_, hlen, rfl, rfl, rfl⟩
    rw [process_pdfs_in_batches, hrs]
  · intro hg hc
    obtain ⟨rs, hrs, hlen, _⟩ := schedGo_ok_all gate copyOk succ maxR hg hc (batches B pdfs) 0
    refine ⟨⟨rs, false, pdfs.length, true⟩, ?_, rfl, hlen, rfl, rfl⟩
    rw [process_pdfs_in_batches, hrs]
  · intro hg hc hgk hck hk
    have herr := schedGo_copyError gate copyOk succ maxR (batches B pdfs) 0 k hk
      (fun j hj => by have := hg j hj; rwa [Nat.zero_add])
      (fun j hj => by have := hc j hj; rwa [Nat.zero_add])
      (by rwa [Nat.zero_add]) (by rwa [Nat.zero_add])
    rw [process_pdfs_in_batches, herr]
  · intro a1 a2 i
    cases h1 : a1 i <;> cases h2 : a2 i <;> simp [gateWithRestart, h1, h2]

/-- C5 amended witness: liveness failing at the second batch halts a 2-batch
run after one processed batch with the summary reported; a staging-copy
failure with the service up aborts the run with no summary. -/
theorem c5_amended_liveness_witness :
    (∃ r, process_pdfs_in_batches (α := Nat) (fun i => i == 0) (fun _ => true)
        (fun _ _ => true) [1, 2, 3] 2 3 = Except.ok r ∧
        r.processed.length = 1 ∧ r.halted = true ∧ r.summaryReported = true ∧
        r.discovered = 3) ∧
    process_pdfs_in_batches (α := Nat) (fun _ => true) (fun _ => false) (fun _ _ => true)
      [1, 2, 3] 2 3 = Except.error () := by
  constructor
  · refine (c5_amended_liveness (fun i => i == 0) (fun _ => true) (fun _ _ => true)
      [1, 2, 3] 2 3 1).1 ?_ (fun j hj => rfl) rfl (by decide)
    intro j hj
    have hj0 : j = 0 := by omega
    subst hj0
    rfl
  · exact (c5_amended_liveness (fun _ => true) (fun _ => false) (fun _ _ => true)
      [1, 2, 3] 2 3 0).2.2.1 (fun j hj => absurd hj (by omega))
      (fun j hj => absurd hj (by omega)) rfl rfl (by decide)

/-- C6: the extractor yields a string for every parseable document — even
one lacking title, keywords and abstract, in which case the artifact is just
the body component — and errors exactly when the input cannot be parsed as
structured markup at all. -/
theorem c6_missing_sections (x : Option Elem) :
    ((∃ s, extractFromParse x = Except.ok s) ↔ x ≠ none) ∧
    (∀ root, x = some root →
      (findTitle root).isNone = true → (findTerms root).isEmpty = true →
      (findAbstract root).isNone = true →
      extractFromParse x = Except.ok (pyJoin blankSep ((bodyEntry root).toList))) := by
  constructor
  · cases x with
    | none => simp [extractFromParse]
    | some r => simp [extractFromParse]
  · intro root hx ht hk ha
    subst hx
    have ht2 : findTitle root = none := Option.isNone_iff_eq_none.mp ht
    have hk2 : findTerms root = [] := List.isEmpty_iff.mp hk
    have ha2 : findAbstract root = none := Option.isNone_iff_eq_none.mp ha
    have e1 : titleLine root = none := by simp [titleLine, ht2]
    have e2 : kwLine root = none := by simp [kwLine, hk2]
    have e3 : absLine root = none := by simp [absLine, ha2]
    show Except.ok (extract_clean_text root) = _
    rw [extract_clean_text, contentOf, e1, e2, e3]
    simp

/-- C6 witness: a document with a body but no title, keywords or abstract
still yields a body-only artifact. -/
theorem c6_missing_sections_witness :
    (findTitle noHeadDoc).isNone = true ∧
    extractFromParse (some noHeadDoc) =
      Except.ok (pyJoin blankSep ((bodyEntry noHeadDoc).toList)) :=
  ⟨by decide, (c6_missing_sections (some noHeadDoc)).2 noHeadDoc rfl (by decide)
    (by decide) (by decide)⟩

/-- C7: the extractor is a pure function of the parsed document: running it
any number of times yields the same list of identical artifacts (in the
embedding, `extract_clean_text : Elem → Str` is a function, so it can
neither mutate the document nor depend on hidden state). -/
theorem c7_extractor_pure (root : Elem) (n : Nat) :
    runExtractorTimes root n = List.replicate n (extract_clean_text root) := by
  rw [runExtractorTimes]
  exact (List.map_const (List.range n) (extract_clean_text root)).trans
    (by rw [List.length_range])



/-- C8 counterexample: `kwDoc` has one keyword term whose text is a single
space; it is not skipped (Python only skips falsy `.text`), strips to the
empty string, and the comma-joined list contains an empty item — the
artifact is `KEYWORDS: ` with nothing after the label. -/
theorem c8_counterexample :
    (findTerms kwDoc).length = 1 ∧
    kwItems kwDoc = [([] : Str)] ∧
    ([] : Str) ∈ kwItems kwDoc ∧
    extract_clean_text kwDoc = "KEYWORDS: ".data := by decide

/-- C8 amended: with at least one keyword term the extractor emits exactly
one `KEYWORDS: `-labelled entry, at its fixed position in the content list,
comma-joining the stripped texts of exactly the terms whose raw text is
non-empty; terms with absent/empty raw text are skipped, but a term with
whitespace-only raw text contributes an empty item. -/
theorem c8_amended_keywords (root : Elem) (h : findTerms root ≠ []) :
    contentOf root =
      (titleLine root).toList ++
        (("KEYWORDS: ".data ++ pyJoin ", ".data (kwItems root)) ::
          ((absLine root).toList ++ (bodyEntry root).toList)) ∧
    (∀ it, it ∈ kwItems root →
      ∃ kw, kw ∈ findTerms root ∧ kw.text ≠ [] ∧ it = pyStrip kw.text) := by
  constructor
  · cases hf : findTerms root with
    | nil => exact absurd hf h
    | cons a t =>
      have e : kwLine root =
          some ("KEYWORDS: ".data ++ pyJoin ", ".data (kwItems root)) := by
        simp [kwLine, hf]
      rw [contentOf, e]
      simp
  · intro it hit
    rw [kwItems, List.mem_filterMap] at hit
    obtain ⟨kw, hkw, hsome⟩ := hit
    by_cases hkt : kw.text = []
    · rw [if_pos hkt] at hsome
      cases hsome
    · rw [if_neg hkt] at hsome
      injection hsome with h2
      exact ⟨kw, hkw, hkt, h2.symm⟩

/-- C8 amended witness: the amended keywords statement at `kwDoc`. -/
theorem c8_amended_keywords_witness :
    (findTerms kwDoc).length = 1 ∧
    contentOf kwDoc =
      (titleLine kwDoc).toList ++
        (("KEYWORDS: ".data ++ pyJoin ", ".data (kwItems kwDoc)) ::
          ((absLine kwDoc).toList ++ (bodyEntry kwDoc).toList)) := by
  refine ⟨rfl, ?_⟩
  have hne : findTerms kwDoc ≠ [] := by
    intro he
    have hl : (findTerms kwDoc).length = 1 := rfl
    rw [he] at hl
    simp at hl
  exact (c8_amended_keywords kwDoc hne).1

/-- C9 counterexample: `emptyBodyDoc` has a title and a body with no
retained blocks; the body component is the empty string yet it is still
appended, so the join gets an empty entry and the artifact ends with a
dangling blank-line separator. -/
theorem c9_counterexample :
    contentOf emptyBodyDoc = ["TITLE: T".data, ([] : Str)] ∧
    ([] : Str) ∈ contentOf emptyBodyDoc ∧
    extract_clean_text emptyBodyDoc = "TITLE: T\n\n".data := by decide

/-- C9 amended: the artifact is the blank-line join of the TITLE, KEYWORDS,
ABSTRACT and BODY components in that order; the first three are present
exactly when found and are never empty entries, but the BODY component is
present whenever a body element exists — even when its cleaned text is
empty, in which case it contributes an empty entry to the join. -/
theorem c9_amended_join (root : Elem) :
    (extract_clean_text root = pyJoin blankSep (contentOf root) ∧
      contentOf root = (titleLine root).toList ++ (kwLine root).toList ++
        (absLine root).toList ++ (bodyEntry root).toList) ∧
    (((titleLine root).isSome = true ↔ ∃ t, findTitle root = some t ∧ t.text ≠ []) ∧
      ((kwLine root).isSome = true ↔ findTerms root ≠ []) ∧
      ((absLine root).isSome = true ↔ (findAbstract root).isSome = true) ∧
      ((bodyEntry root).isSome = true ↔ (findBody root).isSome = true)) ∧
    ((∀ s, s ∈ (titleLine root).toList → s ≠ []) ∧
      (∀ s, s ∈ (kwLine root).toList → s ≠ []) ∧
      (∀ s, s ∈ (absLine root).toList → s ≠ [])) := by
  refine ⟨⟨rfl, rfl⟩, ⟨?_, ?_, ?_, ?_⟩, ?_, ?_, ?_⟩
  · cases hf : findTitle root with
    | none => simp [titleLine, hf]
    | some t =>
      by_cases htx : t.text = []
      · simp [titleLine, hf, htx]
      · simp [titleLine, hf, htx]
  · cases hf : findTerms root with
    | nil => simp [kwLine, hf]
    | cons a tl => simp [kwLine, hf]
  · cases hf : findAbstract root with
    | none => simp [absLine, hf]
    | some a => simp [absLine, hf]
  · cases hf : findBody root with
    | none => simp [bodyEntry, hf]
    | some b => simp [bodyEntry, hf]
  · intro s hs
    cases hf : findTitle root with
    | none => simp [titleLine, hf] at hs
    | some t =>
      by_cases htx : t.text = []
      · simp [titleLine, hf, htx] at hs
      · simp [titleLine, hf, htx] at hs
        subst hs
        exact label_append_ne_nil "TITLE: ".data (pyStrip t.text) (by decide)
  · intro s hs
    cases hf : findTerms root with
    | nil => simp [kwLine, hf] at hs
    | cons a tl =>
      simp [kwLine, hf] at hs
      subst hs
      exact label_append_ne_nil "KEYWORDS: ".data (pyJoin ", ".data (kwItems root))
        (by decide)
  · intro s hs
    cases hf : findAbstract root with
    | none => simp [absLine, hf] at hs
    | some a =>
      simp [absLine, hf] at hs
      subst hs
      exact label_append_ne_nil "ABSTRACT: ".data
        (pyStrip (pyJoin " ".data a.itertext)) (by decide)

/-- C9 amended witness: the amended join statement at `emptyBodyDoc`,
discharging the title-nonemptiness hypothesis there. -/
theorem c9_amended_join_witness :
    extract_clean_text emptyBodyDoc = pyJoin blankSep (contentOf emptyBodyDoc) ∧
    "TITLE: T".data ≠ ([] : Str) :=
  ⟨(c9_amended_join emptyBodyDoc).1.1,
    (c9_amended_join emptyBodyDoc).2.2.1 "TITLE: T".data (by decide)⟩

/-- C10: when every submission attempt fails, exactly `max_retries - 1`
backoff waits occur — none after the final failed attempt — while exactly
`max_retries` calls are made. -/
theorem c10_retry_exhaustion_backoffs (succeeds : Nat → Bool) (maxR : Nat)
    (hf : ∀ a, succeeds a = false) :
    (retryLoop succeeds maxR).backoffs = maxR - 1 ∧
    (retryLoop succeeds maxR).calls = maxR := by
  obtain ⟨hc, hb, _, _⟩ := retryLoop_fail succeeds maxR hf
  exact ⟨hb, hc⟩

/-- C10 witness: an always-failing submission with `max_retries = 3` sleeps
twice and calls three times. -/
theorem c10_retry_exhaustion_backoffs_witness :
    (retryLoop (fun _ => false) 3).backoffs = 2 ∧
    (retryLoop (fun _ => false) 3).calls = 3 :=
  c10_retry_exhaustion_backoffs (fun _ => false) 3 (fun _ => rfl)

end Grobid
